import Mathlib

/-!
Verification of the receipt OCR system's text-reconstruction pipeline
(`src/preprocessing.py`) and receipt parser (`src/receipt_parser.py`).

Strings are modelled as `List Char`.  Monetary amounts are modelled as `ℚ`
(two-decimal amounts are exactly representable).  Each Python `re.sub`
call is embedded as a hand-written scanner faithful to that particular
pattern's leftmost, non-overlapping, greedy-with-the-pattern's-actual-
backtracking semantics.  Fallible operations return `Option`.
-/

namespace Receipt

/-! ## Character classes -/

/-- ASCII digit, as matched by `\d` on the receipt alphabet. -/
def isDigitC (c : Char) : Bool := '0' ≤ c && c ≤ '9'

/-- Whitespace, as matched by `\s` / stripped by `str.strip()` (ASCII set). -/
def isSpaceC (c : Char) : Bool :=
  c = ' ' || c = '\t' || c = '\n' || c = '\r' || c = '\x0b' || c = '\x0c'

/-- The currency symbols of the class `[£$€]`. -/
def isCurrencyC (c : Char) : Bool := c = '£' || c = '$' || c = '€'

def isLowerC (c : Char) : Bool := 'a' ≤ c && c ≤ 'z'

def isUpperC (c : Char) : Bool := 'A' ≤ c && c ≤ 'Z'

def isAlphaC (c : Char) : Bool := isLowerC c || isUpperC c

/-- The consonant class `[bcdfghjklmnpqrstvwxyzBCDFGHJKLMNPQRSTVWXYZ]`. -/
def isConsonantC (c : Char) : Bool :=
  (isAlphaC c) && !(c = 'a' || c = 'e' || c = 'i' || c = 'o' || c = 'u' ||
                    c = 'A' || c = 'E' || c = 'I' || c = 'O' || c = 'U')

/-- The punctuation class `[,\.\-\+\*]` of the artifact/sanitizer rules. -/
def isPunct5 (c : Char) : Bool :=
  c = ',' || c = '.' || c = '-' || c = '+' || c = '*'

/-- `str.lower()` restricted to ASCII letters (identity elsewhere). -/
def toLowerC (c : Char) : Char :=
  if isUpperC c then Char.ofNat (c.toNat + 32) else c

def lowerStr (s : List Char) : List Char := s.map toLowerC

/-! ## Python string primitives -/

/-- `str.lstrip()` (whitespace). -/
def pyStripLeft (s : List Char) : List Char := s.dropWhile isSpaceC

/-- drop trailing elements satisfying `p`. -/
def dropLastWhile (p : Char → Bool) (s : List Char) : List Char :=
  (s.reverse.dropWhile p).reverse

/-- `str.strip()` (whitespace both ends). -/
def pyStrip (s : List Char) : List Char := dropLastWhile isSpaceC (pyStripLeft s)

/-- `str.split('\n')`: e.g. `"" ↦ [""]`, `"a\n" ↦ ["a",""]`. -/
def splitNl : List Char → List (List Char)
  | [] => [[]]
  | c :: rest =>
    if c = '\n' then [] :: splitNl rest
    else
      match splitNl rest with
      | [] => [[c]]
      | l :: ls => (c :: l) :: ls

/-- `'\n'.join(lines)`. -/
def joinNl : List (List Char) → List Char
  | [] => []
  | [l] => l
  | l :: ls => l ++ '\n' :: joinNl ls

/-- Is `pat` a prefix of `s`? -/
def isPrefix : List Char → List Char → Bool
  | [], _ => true
  | _ :: _, [] => false
  | p :: ps, c :: cs => p = c && isPrefix ps cs

/-- Python `pat in s` (substring containment). -/
def containsSub (pat : List Char) : List Char → Bool
  | [] => isPrefix pat []
  | c :: rest => isPrefix pat (c :: rest) || containsSub pat rest

/-- `s.replace(pat, repl)` for a non-empty `pat`: all non-overlapping
occurrences, left to right.  Fuel-driven so the kernel can evaluate it;
fuel `s.length` always suffices since each step consumes ≥ 1 character. -/
def replaceAllF (pat repl : List Char) : Nat → List Char → List Char
  | 0, s => s
  | _ + 1, [] => []
  | fuel + 1, c :: rest =>
    if pat ≠ [] && isPrefix pat (c :: rest) then
      repl ++ replaceAllF pat repl fuel ((c :: rest).drop pat.length)
    else
      c :: replaceAllF pat repl fuel rest

def replaceAll (pat repl s : List Char) : List Char :=
  replaceAllF pat repl s.length s

/-- Prefix of `s` before the first occurrence of `pat`
(`s.split(pat)[0]`); all of `s` when `pat` does not occur. -/
def splitBeforeFirst (pat : List Char) : List Char → List Char
  | [] => []
  | c :: rest =>
    if isPrefix pat (c :: rest) then []
    else c :: splitBeforeFirst pat rest

/-- `int(digit-string)`. -/
def digitsToNat (ds : List Char) : Nat :=
  ds.foldl (fun n c => 10 * n + (c.toNat - '0'.toNat)) 0

/-- Exact rational subtraction `a - b`, written with `mkRat` so the kernel
can evaluate it (`Rat.sub` is irreducible); `qSub_eq_sub` below proves it
coincides with `a - b`. -/
def qSub (a b : ℚ) : ℚ := mkRat (a.num * b.den - b.num * a.den) (a.den * b.den)

/-- Exact rational division `a / n` by a natural number, written with
`mkRat` so the kernel can evaluate it; `qDivNat_eq_div` below proves it
coincides with `a / n`. -/
def qDivNat (a : ℚ) (n : Nat) : ℚ := mkRat a.num (a.den * n)

/-! ## Generic regex-substitution scanner

A matcher `m s` inspects the string starting at the current position.
On a match it returns `(repl, extra)`: the replacement text and the
number of characters consumed *beyond the first one* (every pattern
below consumes at least one character).  `scanSub` emits the
replacement and resumes scanning after the match; on no match it emits
one character and advances — exactly `re.sub`'s leftmost,
non-overlapping behaviour. -/

def scanSubF (m : List Char → Option (List Char × Nat)) :
    Nat → List Char → List Char
  | 0, s => s
  | _ + 1, [] => []
  | fuel + 1, c :: rest =>
    match m (c :: rest) with
    | some (repl, extra) => repl ++ scanSubF m fuel (rest.drop extra)
    | none => c :: scanSubF m fuel rest

def scanSub (m : List Char → Option (List Char × Nat)) (s : List Char) :
    List Char :=
  scanSubF m s.length s

/-- Count of non-overlapping leftmost matches (`len(re.findall(...))`);
the matcher returns `extra` = consumed − 1. -/
def scanCountF (m : List Char → Option Nat) : Nat → List Char → Nat
  | 0, _ => 0
  | _ + 1, [] => 0
  | fuel + 1, c :: rest =>
    match m (c :: rest) with
    | some extra => 1 + scanCountF m fuel (rest.drop extra)
    | none => scanCountF m fuel rest

def scanCount (m : List Char → Option Nat) (s : List Char) : Nat :=
  scanCountF m s.length s

/-- Leftmost match search (`re.search`): first position where `m` fires. -/
def scanFind {α : Type} (m : List Char → Option α) : List Char → Option α
  | [] => none
  | c :: rest =>
    match m (c :: rest) with
    | some a => some a
    | none => scanFind m rest

/-- `re.sub(r'\s+', ' ', s)`: collapse every whitespace run to one space
(used in `_parse_item_line` and `_clean_lines`). -/
def collapseWS (s : List Char) : List Char :=
  scanSub
    (fun t =>
      match t with
      | c :: rest =>
        if isSpaceC c then some ([' '], (rest.takeWhile isSpaceC).length)
        else none
      | [] => none) s

/-- Internal whitespace of `s` is tidy: every whitespace character is a
plain space and no two whitespace characters are adjacent (the shape left
by `re.sub(r'\s+', ' ', ...)`). -/
def wsTidy : List Char → Bool
  | [] => true
  | [c] => !isSpaceC c || c = ' '
  | c :: d :: rest =>
    (!isSpaceC c || c = ' ') && !(isSpaceC c && isSpaceC d) &&
      wsTidy (d :: rest)

/-- `s` is whitespace-normalized: trimmed (no leading or trailing
whitespace) and internally tidy — the normal form produced by `strip()`
followed by `re.sub(r'\s+', ' ', ...)`. -/
def wsNormalized (s : List Char) : Bool :=
  wsTidy s &&
  (match s with
   | [] => true
   | c :: _ => !isSpaceC c) &&
  (match s.getLast? with
   | none => true
   | some c => !isSpaceC c)

/-! ## The price and quantity patterns (`receipt_parser.py` lines 30–31) -/

/-- Attempt `\d+\.\d{2}` at the current position (greedy `\d+` must be the
maximal digit run, since it is followed by the literal `.`).  Returns the
matched characters. -/
def decimalAt (s : List Char) : Option (List Char) :=
  let ds := s.takeWhile isDigitC
  if ds.isEmpty then none
  else
    match s.drop ds.length with
    | '.' :: a :: b :: _ =>
      if isDigitC a && isDigitC b then some (ds ++ '.' :: [a, b]) else none
    | _ => none

/-- Attempt `[£$€]?(\d+\.\d{2})` at the current position.  Returns
`(group0, group1)`.  The optional currency branch cannot backtrack into a
match without it (a currency symbol is not a digit). -/
def priceMatchAt (s : List Char) : Option (List Char × List Char) :=
  match s with
  | [] => none
  | c :: rest =>
    if isCurrencyC c then
      match decimalAt rest with
      | some g1 => some (c :: g1, g1)
      | none => none
    else
      match decimalAt (c :: rest) with
      | some g1 => some (g1, g1)
      | none => none

/-- `self._contains_price(line)`. -/
def containsPrice (line : List Char) : Bool :=
  (scanFind priceMatchAt line).isSome

/-- Numeric value of a matched `group(1)` of the form `digits.d₁d₂`
(`float(match.group(1))`, exactly representable): integer part plus the
two-digit fraction over 100. -/
def ratOfGroup1 (g1 : List Char) : ℚ :=
  let ds := g1.takeWhile isDigitC
  let fr := g1.drop (ds.length + 1)
  mkRat (digitsToNat ds * 100 + digitsToNat fr) 100

/-- `self._extract_price(line)`: first price match, negated when a `-`
occurs in the text before the first occurrence of the matched substring
(`'-' in line.split(match.group(0))[0]`). -/
def extractPrice (line : List Char) : Option ℚ :=
  match scanFind priceMatchAt line with
  | none => none
  | some (g0, g1) =>
    let v := ratOfGroup1 g1
    some (if '-' ∈ splitBeforeFirst g0 line then -v else v)

/-- `re.match` of `(\d+)x\s*(.+)` (IGNORECASE) against `s`: anchored at the
start; greedy `\d+` must be maximal (followed by the literal `x`); `\s*`
greedy with backtracking so that `(.+)` (≥ 1 character, `.` excludes
newline) can still match.  Returns `(int(group1), group2)`. -/
def qtyMatch (s : List Char) : Option (Nat × List Char) :=
  let ds := s.takeWhile isDigitC
  if ds.isEmpty then none
  else
    match s.drop ds.length with
    | x :: t =>
      if x = 'x' || x = 'X' then
        match qtyGroup2 ((t.takeWhile isSpaceC).length) t with
        | some g2 => some (digitsToNat ds, g2)
        | none => none
      else none
    | [] => none
where
  /-- backtrack `\s*` from `k` characters down to `0` until `(.+)` matches. -/
  qtyGroup2 : Nat → List Char → Option (List Char)
    | k, t =>
      let seg := (t.drop k).takeWhile (fun c => c ≠ '\n')
      if seg.isEmpty then
        match k with
        | 0 => none
        | k' + 1 => qtyGroup2 k' t
      else some seg

/-! ## Parser data model (`receipt_parser.py` lines 5–22) -/

structure ReceiptItem where
  name : List Char
  quantity : Nat := 1
  unit_price : ℚ := 0
  total_price : ℚ := 0
  discount : ℚ := 0
  final_price : ℚ := 0
deriving Repr, DecidableEq

structure ReceiptData where
  items : List ReceiptItem := []
  subtotal : ℚ := 0
  total_discount : ℚ := 0
  final_total : ℚ := 0
  payment_method : List Char := []
  amount_paid : ℚ := 0
  change_given : ℚ := 0
deriving Repr, DecidableEq

/-! ## Line classification predicates (`receipt_parser.py` lines 103–192) -/

def skipKeywords : List (List Char) :=
  ["total".data, "discount".data, "change".data, "cash".data, "card".data,
   "receipt".data, "thank".data, "admin".data, "manager".data]

def discountKeywords : List (List Char) :=
  ["discount".data, "override".data, "reduction".data, "off".data, "save".data]

def paymentMethods : List (List Char) :=
  ["cash".data, "card".data, "credit".data, "debit".data, "contactless".data,
   "chip".data, "pin".data]

/-- `self._is_item_line(line)`. -/
def isItemLine (line : List Char) : Bool :=
  let ll := lowerStr line
  if skipKeywords.any (fun kw => containsSub kw ll) then false
  else
    let hasPrice := containsPrice line
    let hasText := (pyStrip (line.filter (fun c => !isCurrencyC c))).length > 3
    let hasQuantity := (qtyMatch line).isSome
    let priceAtEnd :=
      match (pyStrip line).getLast? with
      | some c => c = '0' || c = '5'
      | none => false
    hasPrice && hasText && (hasQuantity || priceAtEnd)

/-- `self._is_discount_line(line)`. -/
def isDiscountLine (line : List Char) : Bool :=
  discountKeywords.any (fun kw => containsSub kw (lowerStr line)) &&
    containsPrice line

/-- `self._is_subtotal_line(line)`. -/
def isSubtotalLine (line : List Char) : Bool :=
  containsSub "sub".data (lowerStr line) &&
    containsSub "total".data (lowerStr line) && containsPrice line

/-- `self._is_total_discount_line(line)`. -/
def isTotalDiscountLine (line : List Char) : Bool :=
  containsSub "discount".data (lowerStr line) &&
    containsSub "total".data (lowerStr line) && containsPrice line

/-- `self._is_final_total_line(line)`. -/
def isFinalTotalLine (line : List Char) : Bool :=
  isPrefix "total".data (lowerStr line) && containsPrice line &&
    !containsSub "sub".data (lowerStr line) &&
    !containsSub "discount".data (lowerStr line)

/-- `self._is_payment_line(line)`. -/
def isPaymentLine (line : List Char) : Bool :=
  paymentMethods.any (fun m => containsSub m (lowerStr line)) &&
    containsPrice line

/-- `self._parse_payment_line(line)`; `None` when the amount is absent or
`0.0` (Python truthiness of `amount`). -/
def parsePaymentLine (line : List Char) : Option (List Char × ℚ) :=
  let method :=
    (paymentMethods.find? (fun m => containsSub m (lowerStr line))).getD
      "unknown".data
  match extractPrice line with
  | some a => if a ≠ 0 then some (method, a) else none
  | none => none

/-- `self._is_change_line(line)`. -/
def isChangeLine (line : List Char) : Bool :=
  containsSub "change".data (lowerStr line) && containsPrice line

/-! ## Item parsing (`receipt_parser.py` lines 122–155) -/

/-- The `(quantity, remainder)` pair of `_parse_item_line`'s first step:
the leading quantity pattern on `line.strip()`, else quantity 1 and the
whole stripped line. -/
def qtyRemainder (line : List Char) : Nat × List Char :=
  match qtyMatch (pyStrip line) with
  | some (q, g2) => (q, pyStrip g2)
  | none => (1, pyStrip line)

/-- The item-name cleanup of `_parse_item_line`: remove the matched price
substring, strip, remove the leading `[\\d\\s\\*\\-]+` run, strip, and
normalize whitespace runs to single spaces. -/
def itemName (g0 remainder : List Char) : List Char :=
  collapseWS (pyStrip ((pyStrip (replaceAll g0 [] remainder)).dropWhile
    (fun c => isDigitC c || isSpaceC c || c = '*' || c = '-')))

/-- `self._parse_item_line(line)`.  A price of `0.0` fails the Python
truthiness guard `if not price` exactly like an absent price. -/
def parseItemLine (line : List Char) : Option ReceiptItem :=
  match extractPrice (qtyRemainder line).2 with
  | none => none
  | some price =>
    if price = 0 then none
    else
      match scanFind priceMatchAt (qtyRemainder line).2 with
      | none => none
      | some (g0, _) =>
        if itemName g0 (qtyRemainder line).2 = [] then none
        else
          some { name := itemName g0 (qtyRemainder line).2,
                 quantity := (qtyRemainder line).1,
                 unit_price :=
                   if (qtyRemainder line).1 > 0 then
                     qDivNat price (qtyRemainder line).1
                   else price,
                 total_price := price, final_price := price }

/-! ## The parse loop (`receipt_parser.py` lines 35–86) -/

/-- The chain of `elif` branches after the item case: subtotal,
total-discount, final-total, payment, change; otherwise the record is
unchanged.  `x or 0.0` is `getD 0` (a `0.0` amount is falsy and yields
`0.0` itself). -/
def stepSummary (line : List Char) (r : ReceiptData) : ReceiptData :=
  if isSubtotalLine line then { r with subtotal := (extractPrice line).getD 0 }
  else if isTotalDiscountLine line then
    { r with total_discount := |(extractPrice line).getD 0| }
  else if isFinalTotalLine line then
    { r with final_total := (extractPrice line).getD 0 }
  else if isPaymentLine line then
    match parsePaymentLine line with
    | some (m, a) => { r with payment_method := m, amount_paid := a }
    | none => r
  else if isChangeLine line then
    { r with change_given := (extractPrice line).getD 0 }
  else r

/-- The item produced after the one-line discount lookahead fired:
`item.discount = abs(amount)` and `final_price` recomputed when the
amount is truthy; the item is unchanged otherwise (but the lookahead
line is consumed either way). -/
def applyDiscount (next : List Char) (item : ReceiptItem) : ReceiptItem :=
  match extractPrice next with
  | some d =>
    if d ≠ 0 then
      { item with discount := |d|,
                  final_price := qSub item.total_price |d| }
    else item
  | none => item

/-- The `while i < len(lines)` loop, with `i` carried for the `i < 3`
header check and the tail of the line list standing for `lines[i:]`. -/
def parseLoop : Nat → List (List Char) → ReceiptData → ReceiptData
  | _, [], r => r
  | i, [line], r =>
    if !containsPrice line && i < 3 then r
    else if isItemLine line then
      match parseItemLine line with
      | some item =>
        { r with items :=
            r.items ++ [{ item with final_price := item.total_price }] }
      | none => r
    else stepSummary line r
  | i, line :: next :: rest, r =>
    if !containsPrice line && i < 3 then parseLoop (i + 1) (next :: rest) r
    else if isItemLine line then
      match parseItemLine line with
      | some item =>
        if isDiscountLine next then
          parseLoop (i + 2) rest
            { r with items := r.items ++ [applyDiscount next item] }
        else
          parseLoop (i + 1) (next :: rest)
            { r with items :=
                r.items ++ [{ item with final_price := item.total_price }] }
      | none => parseLoop (i + 1) (next :: rest) r
    else parseLoop (i + 1) (next :: rest) (stepSummary line r)

/-- `[line.strip() for line in cleaned_text.split('\n') if line.strip()]`. -/
def parsedLines (cleaned_text : List Char) : List (List Char) :=
  ((splitNl cleaned_text).map pyStrip).filter (fun l => !l.isEmpty)

/-- `self.parse_receipt(cleaned_text)`. -/
def parseReceipt (cleaned_text : List Char) : ReceiptData :=
  parseLoop 0 (parsedLines cleaned_text) {}

/-! ## `_fix_minimal_errors` (`preprocessing.py` lines 110–116) -/

/-- `re.sub(r'-£-(\d)', r'-£\1', text)`. -/
def fixDoubleNeg (s : List Char) : List Char :=
  scanSub
    (fun t =>
      match t with
      | '-' :: '£' :: '-' :: d :: _ =>
        if isDigitC d then some (['-', '£', d], 3) else none
      | _ => none) s

def fixMinimalErrors (s : List Char) : List Char :=
  fixDoubleNeg (replaceAll "£0,50".data "£0.50".data
    (replaceAll "-£0,50".data "-£0.50".data s))

/-! ## `_fix_character_errors` (`preprocessing.py` lines 118–131) -/

/-- `(\d)[Oo](\d) → \g<1>0\g<2>`. -/
def fixDigitO (s : List Char) : List Char :=
  scanSub
    (fun t =>
      match t with
      | d1 :: o :: d2 :: _ =>
        if isDigitC d1 && (o = 'O' || o = 'o') && isDigitC d2 then
          some ([d1, '0', d2], 2)
        else none
      | _ => none) s

/-- `(\d)[Il](\d) → \g<1>1\g<2>`. -/
def fixDigitI (s : List Char) : List Char :=
  scanSub
    (fun t =>
      match t with
      | d1 :: o :: d2 :: _ =>
        if isDigitC d1 && (o = 'I' || o = 'l') && isDigitC d2 then
          some ([d1, '1', d2], 2)
        else none
      | _ => none) s

/-- `([£$€])[Oo](\d) → \g<1>0\g<2>`. -/
def fixCurrencyO (s : List Char) : List Char :=
  scanSub
    (fun t =>
      match t with
      | cu :: o :: d :: _ =>
        if isCurrencyC cu && (o = 'O' || o = 'o') && isDigitC d then
          some ([cu, '0', d], 2)
        else none
      | _ => none) s

/-- `([£$€])[Il](\d) → \g<1>1\g<2>`. -/
def fixCurrencyI (s : List Char) : List Char :=
  scanSub
    (fun t =>
      match t with
      | cu :: o :: d :: _ =>
        if isCurrencyC cu && (o = 'I' || o = 'l') && isDigitC d then
          some ([cu, '1', d], 2)
        else none
      | _ => none) s

/-- Matcher for `([£$€])(\d+),(\d{2})(?!\d)`: greedy `\d+` is the maximal
digit run (it is followed by the literal comma), then exactly two digits
with a negative digit lookahead. -/
def commaCurrencyMatch (t : List Char) : Option (List Char × Nat) :=
  match t with
  | cu :: u =>
    if isCurrencyC cu then
      let ds := u.takeWhile isDigitC
      if ds.isEmpty then none
      else
        match u.drop ds.length with
        | ',' :: a :: b :: v =>
          if isDigitC a && isDigitC b &&
              (match v with | [] => true | w :: _ => !isDigitC w) then
            some (cu :: ds ++ '.' :: [a, b], ds.length + 3)
          else none
        | _ => none
    else none
  | [] => none

/-- `re.sub(r'([£$€])(\d+),(\d{2})(?!\d)', r'\1\2.\3', text)`. -/
def commaFixCurrency (s : List Char) : List Char := scanSub commaCurrencyMatch s

/-- Matcher for `(\d+),(\d{2})(?=\s|$)`: maximal digit run, comma, exactly
two digits, with a whitespace-or-end lookahead. -/
def commaBareMatch (t : List Char) : Option (List Char × Nat) :=
  let ds := t.takeWhile isDigitC
  if ds.isEmpty then none
  else
    match t.drop ds.length with
    | ',' :: a :: b :: v =>
      if isDigitC a && isDigitC b &&
          (match v with | [] => true | w :: _ => isSpaceC w) then
        some (ds ++ '.' :: [a, b], ds.length + 2)
      else none
    | _ => none

/-- `re.sub(r'(\d+),(\d{2})(?=\s|$)', r'\1.\2', text)`. -/
def commaFixBare (s : List Char) : List Char := scanSub commaBareMatch s

def fixCharacterErrors (s : List Char) : List Char :=
  commaFixBare (commaFixCurrency (fixCurrencyI (fixCurrencyO
    (fixDigitI (fixDigitO s)))))

/-! ## `_remove_artifact_characters` (`preprocessing.py` lines 133–148) -/

/-- `(\d\.\d{2})\s+[a-zA-Z]\s+([A-Z][a-zA-Z]+) → \1\n\2`. -/
def artifactPriceLetter (s : List Char) : List Char :=
  scanSub
    (fun t =>
      match t with
      | d0 :: '.' :: a :: b :: u =>
        if isDigitC d0 && isDigitC a && isDigitC b then
          let ws1 := u.takeWhile isSpaceC
          if ws1.isEmpty then none
          else
            match u.drop ws1.length with
            | l :: u2 =>
              if isAlphaC l then
                let ws2 := u2.takeWhile isSpaceC
                if ws2.isEmpty then none
                else
                  match u2.drop ws2.length with
                  | cc :: u3 =>
                    if isUpperC cc then
                      let ls := u3.takeWhile isAlphaC
                      if ls.isEmpty then none
                      else
                        some ([d0, '.', a, b, '\n', cc] ++ ls,
                          3 + ws1.length + 1 + ws2.length + 1 + ls.length)
                    else none
                  | [] => none
              else none
            | [] => none
        else none
      | _ => none) s

/-- `\s+[consonants]\s+(?=[A-Z]) → ' '`. -/
def artifactConsonant (s : List Char) : List Char :=
  scanSub
    (fun t =>
      let ws1 := t.takeWhile isSpaceC
      if ws1.isEmpty then none
      else
        match t.drop ws1.length with
        | c :: u =>
          if isConsonantC c then
            let ws2 := u.takeWhile isSpaceC
            if ws2.isEmpty then none
            else
              match u.drop ws2.length with
              | cc :: _ =>
                if isUpperC cc then
                  some ([' '], ws1.length + ws2.length)
                else none
              | [] => none
          else none
        | [] => none) s

/-- `\s*[,\.\-\+\*]{2,}\s* → ' '`.  The leading `\s*` must be the maximal
whitespace run (a shorter one would leave a whitespace character where a
punctuation character is required). -/
def artifactPunctRun (s : List Char) : List Char :=
  scanSub
    (fun t =>
      let ws1 := t.takeWhile isSpaceC
      let u := t.drop ws1.length
      let ps := u.takeWhile isPunct5
      if ps.length < 2 then none
      else
        let ws2 := (u.drop ps.length).takeWhile isSpaceC
        some ([' '], ws1.length + ps.length + ws2.length - 1)) s

def removeArtifactCharacters (s : List Char) : List Char :=
  artifactPunctRun (artifactConsonant (artifactPriceLetter s))

/-! ## `_reconstruct_line_breaks` (`preprocessing.py` lines 150–175) -/

/-- `([a-z])(\s*KEYWORD) → \1\n\2` for a literal keyword. -/
def breakKeyword (kw : List Char) (s : List Char) : List Char :=
  scanSub
    (fun t =>
      match t with
      | lc :: u =>
        if isLowerC lc then
          let ws := u.takeWhile isSpaceC
          if isPrefix kw (u.drop ws.length) then
            some (lc :: '\n' :: ws ++ kw, ws.length + kw.length)
          else none
        else none
      | [] => none) s

/-- `([a-z])(\s*\d+x\s*[A-Z]) → \1\n\2` (case-sensitive `x`). -/
def breakQuantity (s : List Char) : List Char :=
  scanSub
    (fun t =>
      match t with
      | lc :: u =>
        if isLowerC lc then
          let ws := u.takeWhile isSpaceC
          let u1 := u.drop ws.length
          let ds := u1.takeWhile isDigitC
          if ds.isEmpty then none
          else
            match u1.drop ds.length with
            | 'x' :: u2 =>
              let ws2 := u2.takeWhile isSpaceC
              match u2.drop ws2.length with
              | cc :: _ =>
                if isUpperC cc then
                  some (lc :: '\n' :: ws ++ ds ++ 'x' :: ws2 ++ [cc],
                    ws.length + ds.length + 1 + ws2.length + 1)
                else none
              | [] => none
            | _ => none
        else none
      | [] => none) s

/-- `([£$€]\d+\.\d{2})(\s+[A-Z]) → \1\n\2`. -/
def breakCurrencyPrice (s : List Char) : List Char :=
  scanSub
    (fun t =>
      match t with
      | cu :: u =>
        if isCurrencyC cu then
          let ds := u.takeWhile isDigitC
          if ds.isEmpty then none
          else
            match u.drop ds.length with
            | '.' :: a :: b :: u2 =>
              if isDigitC a && isDigitC b then
                let ws := u2.takeWhile isSpaceC
                if ws.isEmpty then none
                else
                  match u2.drop ws.length with
                  | cc :: _ =>
                    if isUpperC cc then
                      some (cu :: ds ++ '.' :: a :: b :: '\n' :: ws ++ [cc],
                        ds.length + 3 + ws.length + 1)
                    else none
                  | [] => none
              else none
            | _ => none
        else none
      | [] => none) s

/-- `(\d+\.\d{2})(\s+[A-Z][a-zA-Z]) → \1\n\2`. -/
def breakBarePrice (s : List Char) : List Char :=
  scanSub
    (fun t =>
      let ds := t.takeWhile isDigitC
      if ds.isEmpty then none
      else
        match t.drop ds.length with
        | '.' :: a :: b :: u2 =>
          if isDigitC a && isDigitC b then
            let ws := u2.takeWhile isSpaceC
            if ws.isEmpty then none
            else
              match u2.drop ws.length with
              | cc :: l :: _ =>
                if isUpperC cc && isAlphaC l then
                  some (ds ++ '.' :: a :: b :: '\n' :: ws ++ [cc, l],
                    ds.length + 2 + ws.length + 2)
                else none
              | _ => none
          else none
        | _ => none) s

/-- `\d{1,2}` followed by the separator `sep`, with the pattern's actual
backtracking (two digits then `sep`, else one digit then `sep`).
Returns the matched characters and the remainder. -/
def numSep (sep : Char) : List Char → Option (List Char × List Char)
  | d1 :: d2 :: c3 :: r =>
    if isDigitC d1 && isDigitC d2 && c3 = sep then some ([d1, d2, sep], r)
    else if isDigitC d1 && d2 = sep then some ([d1, sep], c3 :: r)
    else none
  | [d1, d2] =>
    if isDigitC d1 && d2 = sep then some ([d1, sep], []) else none
  | _ => none

/-- `([a-z])(\s*\d{1,2}sep\d{1,2}sep\d) → \1\n\2` (the two date rules,
`sep` = `/` or `-`). -/
def breakDate (sep : Char) (s : List Char) : List Char :=
  scanSub
    (fun t =>
      match t with
      | lc :: u =>
        if isLowerC lc then
          let ws := u.takeWhile isSpaceC
          match numSep sep (u.drop ws.length) with
          | some (m1, t2) =>
            match numSep sep t2 with
            | some (m2, t3) =>
              match t3 with
              | d :: _ =>
                if isDigitC d then
                  some (lc :: '\n' :: ws ++ m1 ++ m2 ++ [d],
                    ws.length + m1.length + m2.length + 1)
                else none
              | [] => none
            | none => none
          | none => none
        else none
      | [] => none) s

/-- `([a-z])(\s*\d{1,2}:\d{2}) → \1\n\2`. -/
def breakTime (s : List Char) : List Char :=
  scanSub
    (fun t =>
      match t with
      | lc :: u =>
        if isLowerC lc then
          let ws := u.takeWhile isSpaceC
          match numSep ':' (u.drop ws.length) with
          | some (m1, t2) =>
            match t2 with
            | a :: b :: _ =>
              if isDigitC a && isDigitC b then
                some (lc :: '\n' :: ws ++ m1 ++ [a, b],
                  ws.length + m1.length + 2)
              else none
            | _ => none
          | none => none
        else none
      | [] => none) s

/-- The nine boundary rules of `_reconstruct_line_breaks`, applied in the
source's order. -/
def reconstructLineBreaks (s : List Char) : List Char :=
  breakTime (breakDate '-' (breakDate '/' (breakBarePrice
    (breakCurrencyPrice (breakQuantity (breakKeyword "THANK".data
      (breakKeyword "SALES".data (breakKeyword "RECEIPT".data s))))))))

/-! ## `_clean_lines` (`preprocessing.py` lines 177–207) -/

/-- `re.match(r'^[,\.\-\+\*\s]+$', line)`: the (non-empty) line is made of
the five punctuation characters and whitespace only. -/
def punctOnlyLine (l : List Char) : Bool :=
  !l.isEmpty && l.all (fun c => isPunct5 c || isSpaceC c)

/-- `([a-z])([A-Z][a-z]{2,}) → \1 \2` (greedy: the lowercase run after the
capital is maximal, and the scan resumes after it). -/
def caseRule1 (s : List Char) : List Char :=
  scanSub
    (fun t =>
      match t with
      | a :: b :: u =>
        if isLowerC a && isUpperC b then
          let run := u.takeWhile isLowerC
          if run.length ≥ 2 then
            some (a :: ' ' :: b :: run, 1 + run.length)
          else none
        else none
      | _ => none) s

/-- `(\d)([A-Z][a-z]{2,}) → \1 \2`. -/
def caseRule2 (s : List Char) : List Char :=
  scanSub
    (fun t =>
      match t with
      | a :: b :: u =>
        if isDigitC a && isUpperC b then
          let run := u.takeWhile isLowerC
          if run.length ≥ 2 then
            some (a :: ' ' :: b :: run, 1 + run.length)
          else none
        else none
      | _ => none) s

/-- `([a-zA-Z]):([A-Z]) → \1: \2`. -/
def colonRule (s : List Char) : List Char :=
  scanSub
    (fun t =>
      match t with
      | a :: b :: cc :: _ =>
        if b = ':' && isAlphaC a && isUpperC cc then
          some ([a, ':', ' ', cc], 2)
        else none
      | _ => none) s

/-- One iteration of the `_clean_lines` loop: strip, drop empty /
punctuation-only / unlisted single-character lines, then collapse
whitespace and apply the spacing rules. -/
def processLine (line : List Char) : Option (List Char) :=
  let l := pyStrip line
  if l.isEmpty then none
  else if punctOnlyLine l then none
  else if l.length = 1 && l ≠ ['A'] && l ≠ ['I'] then none
  else some (colonRule (caseRule2 (caseRule1 (collapseWS l))))

def cleanLinesList (text : List Char) : List (List Char) :=
  (splitNl text).filterMap processLine

/-- `self._clean_lines(text)`. -/
def cleanLines (text : List Char) : List Char := joinNl (cleanLinesList text)

/-! ## `_clean_and_reconstruct_text` (`preprocessing.py` lines 97–108) -/

def cleanAndReconstructText (raw : List Char) : List Char :=
  if raw.isEmpty then raw
  else
    cleanLines (reconstructLineBreaks (removeArtifactCharacters
      (fixCharacterErrors (fixMinimalErrors raw))))

/-! ## `_analyze_text_quality` (`preprocessing.py` lines 209–231) -/

structure QualityMetrics where
  text_length : Nat
  lines_count : Nat
  money_amounts : Nat
  dates_found : Nat
  quality_score : ℚ
deriving Repr, DecidableEq

/-- One match of `[£$€]?\d+\.\d{2}` (for `re.findall` counting);
returns consumed − 1. -/
def moneyMatch (t : List Char) : Option Nat :=
  match t with
  | [] => none
  | c :: rest =>
    if isCurrencyC c then
      match decimalAt rest with
      | some g1 => some g1.length
      | none => none
    else
      match decimalAt (c :: rest) with
      | some g1 => some (g1.length - 1)
      | none => none

def sepDash (c : Char) : Bool := c = '/' || c = '-'

/-- `\d{1,2}` followed by a slash-or-dash separator, as in `numSep` but
with the two-character class. -/
def numSepCls : List Char → Option (Nat × List Char)
  | d1 :: d2 :: c3 :: r =>
    if isDigitC d1 && isDigitC d2 && sepDash c3 then some (3, r)
    else if isDigitC d1 && sepDash d2 then some (2, c3 :: r)
    else none
  | [d1, d2] =>
    if isDigitC d1 && sepDash d2 then some (2, []) else none
  | _ => none

/-- One match of the date pattern (one or two digits, slash-or-dash,
one or two digits, slash-or-dash, two to four digits); returns
consumed − 1. -/
def dateMatch (t : List Char) : Option Nat :=
  match numSepCls t with
  | some (n1, t2) =>
    match numSepCls t2 with
    | some (n2, t3) =>
      let ds := t3.takeWhile isDigitC
      if ds.length ≥ 2 then some (n1 + n2 + min ds.length 4 - 1) else none
    | none => none
  | none => none

/-- `self._analyze_text_quality(text)`, with amounts as rationals
(`0.3 = 3/10` etc.). -/
def analyzeTextQuality (text : List Char) : QualityMetrics :=
  if text.isEmpty then
    { text_length := 0, lines_count := 0, money_amounts := 0,
      dates_found := 0, quality_score := 0 }
  else
    let lines := (splitNl text).filter (fun l => !(pyStrip l).isEmpty)
    let money := scanCount moneyMatch text
    let dates := scanCount dateMatch text
    let q : ℚ := min
      ((money : ℚ) * (3 / 10) + (dates : ℚ) * (1 / 5) +
        min ((lines.length : ℚ) / 10) 1 * (3 / 10) +
        min ((text.length : ℚ) / 500) 1 * (1 / 5)) 1
    { text_length := text.length, lines_count := lines.length,
      money_amounts := money, dates_found := dates, quality_score := q }

/-! ## Theorems for the claims -/

/-- `qSub` is exactly rational subtraction. -/
theorem qSub_eq_sub (a b : ℚ) : qSub a b = a - b := by
  unfold qSub
  rw [Rat.mkRat_eq_div]
  push_cast
  conv_rhs => rw [← Rat.num_div_den a, ← Rat.num_div_den b]
  have ha : ((a.den : ℚ)) ≠ 0 := by exact_mod_cast a.den_nz
  have hb : ((b.den : ℚ)) ≠ 0 := by exact_mod_cast b.den_nz
  field_simp
  ring

/-- `qDivNat` is exactly rational division by the (cast) natural number. -/
theorem qDivNat_eq_div (a : ℚ) (n : Nat) : qDivNat a n = a / (n : ℚ) := by
  unfold qDivNat
  rcases Nat.eq_zero_or_pos n with h | h
  · simp [h, Rat.mkRat_eq_div]
  · rw [Rat.mkRat_eq_div]
    push_cast
    rw [div_mul_eq_div_div, Rat.num_div_den]

/-- `scanSubF` does not depend on the fuel once it is at least the length
of the string (each step consumes at least one character). -/
theorem scanSubF_congr_fuel (m : List Char → Option (List Char × Nat)) :
    ∀ (n : Nat) (s : List Char), s.length ≤ n → ∀ f1 f2 : Nat,
      s.length ≤ f1 → s.length ≤ f2 → scanSubF m f1 s = scanSubF m f2 s := by
  intro n
  induction n with
  | zero =>
    intro s hs f1 f2 _ _
    have hs' : s = [] := List.eq_nil_of_length_eq_zero (Nat.le_zero.mp hs)
    subst hs'
    cases f1 <;> cases f2 <;> rfl
  | succ n ih =>
    intro s hs f1 f2 h1 h2
    cases s with
    | nil => cases f1 <;> cases f2 <;> rfl
    | cons c rest =>
      obtain ⟨a, rfl⟩ : ∃ a, f1 = a + 1 :=
        ⟨f1 - 1, by simp at h1; omega⟩
      obtain ⟨b, rfl⟩ : ∃ b, f2 = b + 1 :=
        ⟨f2 - 1, by simp at h2; omega⟩
      simp only [scanSubF]
      cases hm : m (c :: rest) with
      | some pr =>
        obtain ⟨repl, extra⟩ := pr
        have hd : (rest.drop extra).length ≤ n := by
          simp at hs ⊢
          omega
        have hda : (rest.drop extra).length ≤ a := by
          simp at h1 ⊢
          omega
        have hdb : (rest.drop extra).length ≤ b := by
          simp at h2 ⊢
          omega
        dsimp only
        rw [ih (rest.drop extra) hd a b hda hdb]
      | none =>
        have hr : rest.length ≤ n := by simp at hs; omega
        dsimp only
        rw [ih rest hr a b (by simp at h1; omega) (by simp at h2; omega)]

/-- `scanSub` at a position where the matcher fires: emit the replacement
and resume after the consumed characters. -/
theorem scanSub_cons_of_match {m : List Char → Option (List Char × Nat)}
    {c : Char} {rest repl : List Char} {extra : Nat}
    (h : m (c :: rest) = some (repl, extra)) :
    scanSub m (c :: rest) = repl ++ scanSub m (rest.drop extra) := by
  unfold scanSub
  simp only [List.length_cons, scanSubF, h]
  congr 1
  exact scanSubF_congr_fuel m (rest.drop extra).length _ le_rfl _ _
    (by rw [List.length_drop]; omega) le_rfl

/-- `scanSub` at a position where the matcher does not fire: emit one
character and advance. -/
theorem scanSub_cons_of_none {m : List Char → Option (List Char × Nat)}
    {c : Char} {rest : List Char} (h : m (c :: rest) = none) :
    scanSub m (c :: rest) = c :: scanSub m rest := by
  unfold scanSub
  simp only [List.length_cons, scanSubF, h]

/-- **C1.** For the raw input `"2xMilk3.00\nTotal3.00\nCash5.00\nChange2.00"`,
the text-reconstruction pipeline (`_clean_and_reconstruct_text`) followed by
`parse_receipt` yields a record with exactly one item (name `"Milk"`,
quantity 2, total price 3.00), final total 3.00, payment method `"cash"`,
amount paid 5.00 and change given 2.00. -/
theorem c1_end_to_end :
    parseReceipt (cleanAndReconstructText
        "2xMilk3.00\nTotal3.00\nCash5.00\nChange2.00".data) =
      { items := [{ name := "Milk".data, quantity := 2,
                    unit_price := mkRat 3 2,
                    total_price := 3, discount := 0, final_price := 3 }],
        subtotal := 0, total_discount := 0, final_total := 3,
        payment_method := "cash".data, amount_paid := 5,
        change_given := 2 } := by
  decide

/-- **C2.** For the two-line cleaned input `["2x Milk 3.00", "Discount -0.50"]`,
`parse_receipt` returns exactly one item with total price 3.00, discount 0.50
and final price 2.50, and the consumed discount lookahead line produces no
other field of the record (all summary fields stay at their defaults). -/
theorem c2_discount_linking :
    parseReceipt "2x Milk 3.00\nDiscount -0.50".data =
      { items := [{ name := "Milk".data, quantity := 2,
                    unit_price := mkRat 3 2,
                    total_price := 3, discount := mkRat 1 2,
                    final_price := mkRat 5 2 }],
        subtotal := 0, total_discount := 0, final_total := 0,
        payment_method := [], amount_paid := 0, change_given := 0 } := by
  decide

/-- **C3.** `"Sub Total 10.00"` is classified as a subtotal line and not as a
final-total line, and parsing a text containing it sets `subtotal` (not
`final_total`) to 10.00. -/
theorem c3_subtotal_precedence :
    isSubtotalLine "Sub Total 10.00".data = true ∧
    isFinalTotalLine "Sub Total 10.00".data = false ∧
    parseReceipt "Sub Total 10.00".data =
      { subtotal := 10, final_total := 0 } := by
  decide

/-- Generic character-provenance lemma for the substitution scanner: when
every replacement only re-emits consumed characters or inserts spaces, the
output contains only input characters and spaces. -/
theorem scanSubF_mem (m : List Char → Option (List Char × Nat))
    (hm : ∀ t repl extra, m t = some (repl, extra) →
      ∀ c ∈ repl, c ∈ t ∨ c = ' ') :
    ∀ (fuel : Nat) (s : List Char) (c : Char),
      c ∈ scanSubF m fuel s → c ∈ s ∨ c = ' ' := by
  intro fuel
  induction fuel with
  | zero => intro s c hc; exact Or.inl hc
  | succ n ih =>
    intro s c hc
    cases s with
    | nil => simp [scanSubF] at hc
    | cons c0 rest =>
      simp only [scanSubF] at hc
      cases hmm : m (c0 :: rest) with
      | some pr =>
        obtain ⟨repl, extra⟩ := pr
        rw [hmm] at hc
        dsimp only at hc
        rcases List.mem_append.mp hc with hc | hc
        · exact hm _ _ _ hmm c hc
        · rcases ih (rest.drop extra) c hc with h | h
          · exact Or.inl (List.mem_cons_of_mem c0 (List.mem_of_mem_drop h))
          · exact Or.inr h
      | none =>
        rw [hmm] at hc
        dsimp only at hc
        rcases List.mem_cons.mp hc with rfl | hc
        · exact Or.inl (List.mem_cons_self _ _)
        · rcases ih rest c hc with h | h
          · exact Or.inl (List.mem_cons_of_mem c0 h)
          · exact Or.inr h

/-- Characters of a whitespace-collapsed string come from the input or are
spaces. -/
theorem collapseWS_mem (s : List Char) (c : Char) (hc : c ∈ collapseWS s) :
    c ∈ s ∨ c = ' ' := by
  refine scanSubF_mem _ ?_ s.length s c hc
  intro t repl extra hmm c' hc'
  cases t with
  | nil => exact Option.noConfusion hmm
  | cons x rest =>
    dsimp only at hmm
    by_cases hx : isSpaceC x = true
    · rw [if_pos hx] at hmm
      injection hmm with h1
      injection h1 with h2 _
      subst h2
      exact Or.inr (List.mem_singleton.mp hc')
    · rw [if_neg hx] at hmm
      exact Option.noConfusion hmm

/-- Characters after the lowercase–uppercase spacing rule come from the
input or are spaces. -/
theorem caseRule1_mem (s : List Char) (c : Char) (hc : c ∈ caseRule1 s) :
    c ∈ s ∨ c = ' ' := by
  refine scanSubF_mem _ ?_ s.length s c hc
  intro t repl extra hmm c' hc'
  cases t with
  | nil => exact Option.noConfusion hmm
  | cons a u0 =>
    cases u0 with
    | nil => exact Option.noConfusion hmm
    | cons b u =>
      dsimp only at hmm
      by_cases hab : (isLowerC a && isUpperC b) = true
      · rw [if_pos hab] at hmm
        by_cases hrun : (u.takeWhile isLowerC).length ≥ 2
        · rw [if_pos hrun] at hmm
          injection hmm with h1
          injection h1 with h2 _
          subst h2
          rcases List.mem_cons.mp hc' with rfl | hc'
          · exact Or.inl (List.mem_cons_self _ _)
          · rcases List.mem_cons.mp hc' with rfl | hc'
            · exact Or.inr rfl
            · rcases List.mem_cons.mp hc' with rfl | hc'
              · exact Or.inl (List.mem_cons_of_mem _ (List.mem_cons_self _ _))
              · exact Or.inl (List.mem_cons_of_mem _ (List.mem_cons_of_mem _
                  ((List.takeWhile_sublist _).mem hc')))
        · rw [if_neg hrun] at hmm
          exact Option.noConfusion hmm
      · rw [if_neg hab] at hmm
        exact Option.noConfusion hmm

/-- Characters after the digit–uppercase spacing rule come from the input
or are spaces. -/
theorem caseRule2_mem (s : List Char) (c : Char) (hc : c ∈ caseRule2 s) :
    c ∈ s ∨ c = ' ' := by
  refine scanSubF_mem _ ?_ s.length s c hc
  intro t repl extra hmm c' hc'
  cases t with
  | nil => exact Option.noConfusion hmm
  | cons a u0 =>
    cases u0 with
    | nil => exact Option.noConfusion hmm
    | cons b u =>
      dsimp only at hmm
      by_cases hab : (isDigitC a && isUpperC b) = true
      · rw [if_pos hab] at hmm
        by_cases hrun : (u.takeWhile isLowerC).length ≥ 2
        · rw [if_pos hrun] at hmm
          injection hmm with h1
          injection h1 with h2 _
          subst h2
          rcases List.mem_cons.mp hc' with rfl | hc'
          · exact Or.inl (List.mem_cons_self _ _)
          · rcases List.mem_cons.mp hc' with rfl | hc'
            · exact Or.inr rfl
            · rcases List.mem_cons.mp hc' with rfl | hc'
              · exact Or.inl (List.mem_cons_of_mem _ (List.mem_cons_self _ _))
              · exact Or.inl (List.mem_cons_of_mem _ (List.mem_cons_of_mem _
                  ((List.takeWhile_sublist _).mem hc')))
        · rw [if_neg hrun] at hmm
          exact Option.noConfusion hmm
      · rw [if_neg hab] at hmm
        exact Option.noConfusion hmm

/-- Characters after the colon spacing rule come from the input or are
spaces. -/
theorem colonRule_mem (s : List Char) (c : Char) (hc : c ∈ colonRule s) :
    c ∈ s ∨ c = ' ' := by
  refine scanSubF_mem _ ?_ s.length s c hc
  intro t repl extra hmm c' hc'
  cases t with
  | nil => exact Option.noConfusion hmm
  | cons a u0 =>
    cases u0 with
    | nil => exact Option.noConfusion hmm
    | cons b u1 =>
      cases u1 with
      | nil => exact Option.noConfusion hmm
      | cons cc u =>
        dsimp only at hmm
        by_cases hac : (b = ':' && isAlphaC a && isUpperC cc) = true
        · rw [if_pos hac] at hmm
          injection hmm with h1
          injection h1 with h2 _
          subst h2
          have hb : b = ':' := by
            simp only [Bool.and_eq_true, decide_eq_true_eq] at hac
            exact hac.1.1
          rcases List.mem_cons.mp hc' with rfl | hc'
          · exact Or.inl (List.mem_cons_self _ _)
          · rcases List.mem_cons.mp hc' with rfl | hc'
            · exact Or.inl (by rw [← hb]; exact
                List.mem_cons_of_mem _ (List.mem_cons_self _ _))
            · rcases List.mem_cons.mp hc' with rfl | hc'
              · exact Or.inr rfl
              · rcases List.mem_singleton.mp hc' with rfl
                exact Or.inl (List.mem_cons_of_mem _
                  (List.mem_cons_of_mem _ (List.mem_cons_self _ _)))
        · rw [if_neg hac] at hmm
          exact Option.noConfusion hmm

/-- Stripping only removes characters. -/
theorem pyStrip_mem (s : List Char) (c : Char) (hc : c ∈ pyStrip s) :
    c ∈ s := by
  unfold pyStrip dropLastWhile pyStripLeft at hc
  rw [List.mem_reverse] at hc
  have h1 := (List.dropWhile_sublist _).mem hc
  rw [List.mem_reverse] at h1
  exact (List.dropWhile_sublist _).mem h1
/-- Lines produced by splitting on newlines contain no newline. -/
theorem splitNl_mem_no_nl :
    ∀ (s : List Char) (l : List Char), l ∈ splitNl s → '\n' ∉ l := by
  intro s
  induction s with
  | nil =>
    intro l hl
    simp only [splitNl, List.mem_singleton] at hl
    subst hl
    simp
  | cons c rest ih =>
    intro l hl
    by_cases hc : c = '\n'
    · subst hc
      rw [splitNl, if_pos rfl] at hl
      rcases List.mem_cons.mp hl with rfl | hl
      · simp
      · exact ih l hl
    · rw [splitNl, if_neg hc] at hl
      generalize hq : splitNl rest = q at hl
      cases q with
      | nil =>
        rcases List.mem_singleton.mp hl with rfl
        simp [hc, Ne.symm hc]
      | cons m ms =>
        rcases List.mem_cons.mp hl with rfl | hl
        · intro hmem
          rcases List.mem_cons.mp hmem with h | h
          · exact hc h.symm
          · exact ih m (by rw [hq]; exact List.mem_cons_self m ms) h
        · exact ih l (by rw [hq]; exact List.mem_cons_of_mem m hl)

/-- Splitting a newline-free string yields that single line. -/
theorem splitNl_eq_of_no_nl :
    ∀ (l : List Char), '\n' ∉ l → splitNl l = [l] := by
  intro l
  induction l with
  | nil => intro _; rfl
  | cons c rest ih =>
    intro h
    have hc : ¬ c = '\n' := fun hq => h (hq ▸ List.mem_cons_self c rest)
    have hrest : '\n' ∉ rest := fun hq => h (List.mem_cons_of_mem c hq)
    rw [splitNl, if_neg hc, ih hrest]

/-- Splitting peels off a leading newline-free line. -/
theorem splitNl_append_nl :
    ∀ (l z : List Char), '\n' ∉ l →
      splitNl (l ++ '\n' :: z) = l :: splitNl z := by
  intro l
  induction l with
  | nil => intro z _; simp [splitNl]
  | cons c rest ih =>
    intro z h
    have hc : ¬ c = '\n' := fun hq => h (hq ▸ List.mem_cons_self c rest)
    have hrest : '\n' ∉ rest := fun hq => h (List.mem_cons_of_mem c hq)
    rw [List.cons_append, splitNl, if_neg hc, ih z hrest]

/-- Splitting the newline-join of newline-free lines recovers the lines. -/
theorem splitNl_joinNl :
    ∀ (L : List (List Char)), L ≠ [] → (∀ l ∈ L, '\n' ∉ l) →
      splitNl (joinNl L) = L := by
  intro L
  induction L with
  | nil => intro h _; exact absurd rfl h
  | cons l ls ih =>
    intro _ hnn
    cases ls with
    | nil =>
      show splitNl (joinNl [l]) = [l]
      rw [joinNl, splitNl_eq_of_no_nl l (hnn l (List.mem_cons_self l []))]
    | cons l2 ls2 =>
      show splitNl (l ++ '\n' :: joinNl (l2 :: ls2)) = l :: l2 :: ls2
      rw [splitNl_append_nl l _ (hnn l (List.mem_cons_self _ _)),
        ih (by simp) (fun x hx => hnn x (List.mem_cons_of_mem l hx))]

/-- A `filterMap` whose function fixes every element of the list is the
identity on it. -/
theorem filterMap_eq_self_of (f : List Char → Option (List Char)) :
    ∀ (L : List (List Char)), (∀ l ∈ L, f l = some l) →
      L.filterMap f = L := by
  intro L
  induction L with
  | nil => intro _; rfl
  | cons l ls ih =>
    intro h
    rw [List.filterMap_cons, h l (List.mem_cons_self l ls),
      ih (fun x hx => h x (List.mem_cons_of_mem l hx))]

/-- Sanitizer output lines contain no newline (inputs come from a newline
split and the per-line rules only insert spaces). -/
theorem cleanLinesList_no_nl (text : List Char) (l : List Char)
    (hl : l ∈ cleanLinesList text) : '\n' ∉ l := by
  obtain ⟨li, hmem, hproc⟩ := List.mem_filterMap.mp hl
  unfold processLine at hproc
  dsimp only at hproc
  split at hproc
  · exact Option.noConfusion hproc
  · split at hproc
    · exact Option.noConfusion hproc
    · split at hproc
      · exact Option.noConfusion hproc
      · rw [Option.some_inj] at hproc
        subst hproc
        intro hnl
        rcases colonRule_mem _ _ hnl with hnl | hnl
        rotate_left
        · exact absurd hnl (by decide)
        rcases caseRule2_mem _ _ hnl with hnl | hnl
        rotate_left
        · exact absurd hnl (by decide)
        rcases caseRule1_mem _ _ hnl with hnl | hnl
        rotate_left
        · exact absurd hnl (by decide)
        rcases collapseWS_mem _ _ hnl with hnl | hnl
        rotate_left
        · exact absurd hnl (by decide)
        exact splitNl_mem_no_nl text li hmem (pyStrip_mem li '\n' hnl)

/-- **C4, amended.** The sanitizer is idempotent on every input whose
sanitized lines are themselves fixed points of the per-line cleaning step
(in particular, whenever the case-transition and colon spacing rules find
nothing further to rewrite); it is not idempotent in general, because the
non-overlapping case-transition scan can skip a match it exposes
(counterexample `"aBcdEfgh"`). -/
theorem c4_amended (text : List Char)
    (h : ∀ l ∈ cleanLinesList text, processLine l = some l) :
    cleanLines (cleanLines text) = cleanLines text := by
  cases hL : cleanLinesList text with
  | nil =>
    have h1 : cleanLines text = [] := by
      rw [cleanLines, hL]
      rfl
    rw [h1]
    decide
  | cons l0 ls0 =>
    have hlist : cleanLinesList (cleanLines text) = cleanLinesList text := by
      have e1 : cleanLinesList (cleanLines text) =
          List.filterMap processLine
            (splitNl (joinNl (cleanLinesList text))) := rfl
      rw [e1, splitNl_joinNl (cleanLinesList text) (by rw [hL]; simp)
        (fun l hl => cleanLinesList_no_nl text l hl)]
      exact filterMap_eq_self_of processLine (cleanLinesList text) h
    rw [show cleanLines (cleanLines text) =
      joinNl (cleanLinesList (cleanLines text)) from rfl, hlist]
    rfl

/-- Witness for `c4_amended` at `"2x Milk 3.00\nTotal 3.00"`. -/
theorem c4_amended_witness :
    (∀ l ∈ cleanLinesList "2x Milk 3.00\nTotal 3.00".data,
      processLine l = some l) ∧
    cleanLines (cleanLines "2x Milk 3.00\nTotal 3.00".data) =
      cleanLines "2x Milk 3.00\nTotal 3.00".data :=
  ⟨by decide, c4_amended "2x Milk 3.00\nTotal 3.00".data (by decide)⟩

/-- **C4, counterexample.** The sanitizer is not idempotent: on
`"aBcdEfgh"` the first pass's non-overlapping case-transition scan skips
the `dEfgh` transition it exposes, and a second pass splits it. -/
theorem c4_counterexample :
    cleanLines (cleanLines "aBcdEfgh".data) ≠ cleanLines "aBcdEfgh".data := by
  decide

/-- Generic character-count preservation for the substitution scanner: if
every replacement preserves the `p`-count of the consumed characters, the
whole substitution preserves the `p`-count. -/
theorem scanSubF_countP (p : Char → Bool)
    (m : List Char → Option (List Char × Nat))
    (hm : ∀ t repl extra, m t = some (repl, extra) →
      List.countP p repl = List.countP p (t.take (extra + 1))) :
    ∀ (fuel : Nat) (s : List Char),
      List.countP p (scanSubF m fuel s) = List.countP p s := by
  intro fuel
  induction fuel with
  | zero => intro s; rfl
  | succ n ih =>
    intro s
    cases s with
    | nil => rfl
    | cons c rest =>
      simp only [scanSubF]
      cases hmm : m (c :: rest) with
      | some pr =>
        obtain ⟨repl, extra⟩ := pr
        dsimp only
        rw [List.countP_append, hm _ _ _ hmm, ih]
        conv_rhs => rw [← List.take_append_drop (extra + 1) (c :: rest)]
        rw [List.countP_append, List.drop_succ_cons]
      | none =>
        dsimp only
        rw [List.countP_cons, List.countP_cons, ih]

/-- Taking `takeWhile`-many elements yields the `takeWhile` prefix. -/
theorem take_takeWhile_length (p : Char → Bool) (l : List Char) :
    l.take (l.takeWhile p).length = l.takeWhile p :=
  (List.prefix_iff_eq_take.mp (List.takeWhile_prefix p)).symm

/-- Whitespace collapsing preserves the count of characters of any class
that excludes whitespace. -/
theorem collapseWS_countP (p : Char → Bool)
    (hp : ∀ c, isSpaceC c = true → p c = false) (s : List Char) :
    List.countP p (collapseWS s) = List.countP p s := by
  unfold collapseWS scanSub
  apply scanSubF_countP
  intro t repl extra hm
  cases t with
  | nil => exact Option.noConfusion hm
  | cons c rest =>
    dsimp only at hm
    by_cases hc : isSpaceC c = true
    · rw [if_pos hc] at hm
      obtain ⟨rfl, rfl⟩ : repl = [' '] ∧ extra = (rest.takeWhile isSpaceC).length := by
        injection hm with h1
        injection h1 with h2 h3
        exact ⟨h2.symm, h3.symm⟩
      rw [List.take_succ_cons, take_takeWhile_length]
      rw [List.countP_eq_zero.mpr, List.countP_eq_zero.mpr]
      · intro a ha
        rcases List.mem_cons.mp ha with rfl | ha
        · simp [hp a hc]
        · simp [hp a (List.mem_takeWhile_imp ha)]
      · intro a ha
        rcases List.mem_singleton.mp ha with rfl
        simp [hp ' ' (by decide)]
    · rw [if_neg hc] at hm
      exact Option.noConfusion hm

/-- The lowercase–uppercase spacing rule only inserts a space, so it
preserves the count of any class excluding the space character. -/
theorem caseRule1_countP (p : Char → Bool)
    (hp : p ' ' = false) (s : List Char) :
    List.countP p (caseRule1 s) = List.countP p s := by
  unfold caseRule1 scanSub
  apply scanSubF_countP
  intro t repl extra hm
  cases t with
  | nil => exact Option.noConfusion hm
  | cons a u0 =>
    cases u0 with
    | nil => exact Option.noConfusion hm
    | cons b u =>
      dsimp only at hm
      by_cases hab : (isLowerC a && isUpperC b) = true
      · rw [if_pos hab] at hm
        by_cases hrun : (u.takeWhile isLowerC).length ≥ 2
        · rw [if_pos hrun] at hm
          obtain ⟨rfl, rfl⟩ : repl = a :: ' ' :: b :: u.takeWhile isLowerC ∧
              extra = 1 + (u.takeWhile isLowerC).length := by
            injection hm with h1
            injection h1 with h2 h3
            exact ⟨h2.symm, h3.symm⟩
          rw [show 1 + (u.takeWhile isLowerC).length + 1 =
            (u.takeWhile isLowerC).length + 1 + 1 from by omega]
          rw [List.take_succ_cons, List.take_succ_cons, take_takeWhile_length]
          simp [List.countP_cons, hp]
        · rw [if_neg hrun] at hm
          exact Option.noConfusion hm
      · rw [if_neg hab] at hm
        exact Option.noConfusion hm
/-- The digit–uppercase spacing rule only inserts a space, so it preserves
the count of any class excluding the space character. -/
theorem caseRule2_countP (p : Char → Bool)
    (hp : p ' ' = false) (s : List Char) :
    List.countP p (caseRule2 s) = List.countP p s := by
  unfold caseRule2 scanSub
  apply scanSubF_countP
  intro t repl extra hm
  cases t with
  | nil => exact Option.noConfusion hm
  | cons a u0 =>
    cases u0 with
    | nil => exact Option.noConfusion hm
    | cons b u =>
      dsimp only at hm
      by_cases hab : (isDigitC a && isUpperC b) = true
      · rw [if_pos hab] at hm
        by_cases hrun : (u.takeWhile isLowerC).length ≥ 2
        · rw [if_pos hrun] at hm
          obtain ⟨rfl, rfl⟩ : repl = a :: ' ' :: b :: u.takeWhile isLowerC ∧
              extra = 1 + (u.takeWhile isLowerC).length := by
            injection hm with h1
            injection h1 with h2 h3
            exact ⟨h2.symm, h3.symm⟩
          rw [show 1 + (u.takeWhile isLowerC).length + 1 =
            (u.takeWhile isLowerC).length + 1 + 1 from by omega]
          rw [List.take_succ_cons, List.take_succ_cons, take_takeWhile_length]
          simp [List.countP_cons, hp]
        · rw [if_neg hrun] at hm
          exact Option.noConfusion hm
      · rw [if_neg hab] at hm
        exact Option.noConfusion hm

/-- The colon spacing rule only inserts a space, so it preserves the count
of any class excluding the space character. -/
theorem colonRule_countP (p : Char → Bool)
    (hp : p ' ' = false) (s : List Char) :
    List.countP p (colonRule s) = List.countP p s := by
  unfold colonRule scanSub
  apply scanSubF_countP
  intro t repl extra hm
  cases t with
  | nil => exact Option.noConfusion hm
  | cons a u0 =>
    cases u0 with
    | nil => exact Option.noConfusion hm
    | cons b u1 =>
      cases u1 with
      | nil => exact Option.noConfusion hm
      | cons cc u =>
        dsimp only at hm
        by_cases hac : (b = ':' && isAlphaC a && isUpperC cc) = true
        · rw [if_pos hac] at hm
          obtain ⟨rfl, rfl⟩ : repl = [a, ':', ' ', cc] ∧ extra = 2 := by
            injection hm with h1
            injection h1 with h2 h3
            exact ⟨h2.symm, h3.symm⟩
          have hb : b = ':' := by
            simp only [Bool.and_eq_true, decide_eq_true_eq] at hac
            exact hac.1.1
          subst hb
          simp [List.countP_cons, hp]
        · rw [if_neg hac] at hm
          exact Option.noConfusion hm
/-- The head of a `dropWhile` result fails the dropped predicate. -/
theorem dropWhile_head_false (p : Char → Bool) :
    ∀ (l : List Char) (a : Char) (rest : List Char),
      l.dropWhile p = a :: rest → p a = false := by
  intro l
  induction l with
  | nil => intro a rest h; exact List.noConfusion h
  | cons c t ih =>
    intro a rest h
    rw [List.dropWhile_cons] at h
    split at h
    · exact ih a rest h
    · rename_i hc
      injection h with h1 _
      subst h1
      simpa using hc

/-- A non-empty stripped string starts and ends with a non-whitespace
character. -/
theorem pyStrip_ends (s : List Char) (h : pyStrip s ≠ []) :
    ∃ a z, (pyStrip s).head? = some a ∧ isSpaceC a = false ∧
      (pyStrip s).getLast? = some z ∧ isSpaceC z = false := by
  have hps : pyStrip s =
      ((s.dropWhile isSpaceC).reverse.dropWhile isSpaceC).reverse := rfl
  cases hzq : (s.dropWhile isSpaceC).reverse.dropWhile isSpaceC with
  | nil => exact absurd (by rw [hps, hzq]; rfl) h
  | cons b w =>
    have hb : isSpaceC b = false := dropWhile_head_false _ _ _ _ hzq
    have hlast : (pyStrip s).getLast? = some b := by
      rw [hps, List.getLast?_reverse, hzq]
      rfl
    cases hyq : s.dropWhile isSpaceC with
    | nil =>
      rw [hyq] at hzq
      simp at hzq
    | cons a0 t0 =>
      have ha : isSpaceC a0 = false := dropWhile_head_false _ _ _ _ hyq
      have hhead : (pyStrip s).head? = some a0 := by
        rw [hyq] at hzq
        rw [hps, hyq, List.head?_reverse]
        have e1 : ((a0 :: t0).reverse.dropWhile isSpaceC).getLast? =
            ((a0 :: t0).reverse).getLast? := by
          conv_rhs =>
            rw [← List.takeWhile_append_dropWhile isSpaceC (a0 :: t0).reverse]
          rw [List.getLast?_append, hzq]
          cases hg : (b :: w).getLast? with
          | none => simp at hg
          | some q => simp [Option.or]
        rw [e1, List.getLast?_reverse]
        rfl
      exact ⟨a0, b, hhead, ha, hlast, hb⟩

/-- A stripped string of length at least two has at least two
non-whitespace characters (its first and last). -/
theorem countP_pyStrip_two (s : List Char) (h2 : 2 ≤ (pyStrip s).length) :
    2 ≤ List.countP (fun c => !isSpaceC c) (pyStrip s) := by
  have hne : pyStrip s ≠ [] := by
    intro h0
    rw [h0] at h2
    simp at h2
  obtain ⟨a, z, hh, ha, hl, hz⟩ := pyStrip_ends s hne
  obtain ⟨rest, hrest⟩ : ∃ rest, pyStrip s = a :: rest := by
    cases hps : pyStrip s with
    | nil => exact absurd hps hne
    | cons x xs =>
      rw [hps] at hh
      exact ⟨xs, by rw [show x = a from by simpa using hh]⟩
  have hrne : rest ≠ [] := by
    intro h0
    rw [hrest, h0] at h2
    simp at h2
  have hzrest : rest.getLast? = some z := by
    rw [hrest] at hl
    cases rest with
    | nil => exact absurd rfl hrne
    | cons r0 rs => rwa [List.getLast?_cons_cons] at hl
  have hzmem : z ∈ rest := by
    obtain ⟨hne', heq⟩ := List.mem_getLast?_eq_getLast
      (show z ∈ rest.getLast? from hzrest ▸ rfl)
    rw [heq]
    exact List.getLast_mem hne'
  have h1 : 0 < List.countP (fun c => !isSpaceC c) rest :=
    List.countP_pos_iff.mpr ⟨z, hzmem, by simp [hz]⟩
  rw [hrest, List.countP_cons]
  simp only [ha, Bool.not_false, if_true]
  omega
/-- **C6, amended.** Every line of the sanitizer output either has length
≥ 2 or is exactly `"A"` or `"I"` (the single-character whitelist of
`_clean_lines`), and no output line consists purely of the punctuation
characters `, . - + *` and whitespace. -/
theorem c6_amended (text : List Char) (l : List Char)
    (hl : l ∈ cleanLinesList text) :
    (2 ≤ l.length ∨ l = ['A'] ∨ l = ['I']) ∧ punctOnlyLine l = false := by
  obtain ⟨li, hmem, hproc⟩ := List.mem_filterMap.mp hl
  unfold processLine at hproc
  dsimp only at hproc
  split at hproc
  · exact Option.noConfusion hproc
  · split at hproc
    · exact Option.noConfusion hproc
    · split at hproc
      · exact Option.noConfusion hproc
      · rename_i hempty hpunct hsingle
        rw [Option.some_inj] at hproc
        subst hproc
        have hNW : List.countP (fun c => !isSpaceC c)
            (colonRule (caseRule2 (caseRule1 (collapseWS (pyStrip li))))) =
            List.countP (fun c => !isSpaceC c) (pyStrip li) := by
          rw [colonRule_countP _ (by decide), caseRule2_countP _ (by decide),
            caseRule1_countP _ (by decide),
            collapseWS_countP _ (fun c hc => by simp [hc])]
        have hNP : List.countP (fun c => !(isPunct5 c || isSpaceC c))
            (colonRule (caseRule2 (caseRule1 (collapseWS (pyStrip li))))) =
            List.countP (fun c => !(isPunct5 c || isSpaceC c)) (pyStrip li) := by
          rw [colonRule_countP _ (by decide), caseRule2_countP _ (by decide),
            caseRule1_countP _ (by decide),
            collapseWS_countP _ (fun c hc => by simp [hc])]
        have hne0 : pyStrip li ≠ [] := by
          intro h0
          rw [h0] at hempty
          exact hempty rfl
        constructor
        · by_cases hlen : (pyStrip li).length = 1
          · have hAI : pyStrip li = ['A'] ∨ pyStrip li = ['I'] := by
              by_cases hA : pyStrip li = ['A']
              · exact Or.inl hA
              · by_cases hI : pyStrip li = ['I']
                · exact Or.inr hI
                · exact absurd (by simp [hlen, hA, hI]) hsingle
            rcases hAI with hq | hq <;> rw [hq]
            · right
              left
              decide
            · right
              right
              decide
          · have hlen2 : 2 ≤ (pyStrip li).length := by
              have h1 : 0 < (pyStrip li).length := List.length_pos.mpr hne0
              omega
            left
            calc 2 ≤ List.countP (fun c => !isSpaceC c) (pyStrip li) :=
                  countP_pyStrip_two li hlen2
              _ = _ := hNW.symm
              _ ≤ _ := List.countP_le_length _
        · have hex : ∃ c ∈ pyStrip li, (isPunct5 c || isSpaceC c) = false := by
            have hall : (pyStrip li).all
                (fun c => isPunct5 c || isSpaceC c) = false := by
              by_cases hq : (pyStrip li).all (fun c => isPunct5 c || isSpaceC c) = true
              · exact absurd (by
                  unfold punctOnlyLine
                  rw [hq, List.isEmpty_eq_false.mpr hne0]
                  rfl) hpunct
              · simpa using hq
            obtain ⟨x, hx1, hx2⟩ := List.all_eq_false.mp hall
            exact ⟨x, hx1, by simpa using hx2⟩
          have h1 : 0 < List.countP (fun c => !(isPunct5 c || isSpaceC c))
              (pyStrip li) := by
            obtain ⟨x, hx1, hx2⟩ := hex
            exact List.countP_pos_iff.mpr ⟨x, hx1, by simp [hx2]⟩
          rw [← hNP] at h1
          obtain ⟨x, hx1, hx2⟩ := List.countP_pos_iff.mp h1
          have hall : (colonRule (caseRule2 (caseRule1 (collapseWS
              (pyStrip li))))).all (fun c => isPunct5 c || isSpaceC c) = false :=
            List.all_eq_false.mpr ⟨x, hx1, by simpa using hx2⟩
          unfold punctOnlyLine
          rw [hall]
          simp

/-- Witness for `c6_amended` at the text `"ab\nA"` and its first output
line. -/
theorem c6_amended_witness :
    ("ab".data ∈ cleanLinesList "ab\nA".data) ∧
    ((2 ≤ "ab".data.length ∨ "ab".data = ['A'] ∨ "ab".data = ['I']) ∧
      punctOnlyLine "ab".data = false) :=
  ⟨by decide, c6_amended "ab\nA".data "ab".data (by decide)⟩

/-- **C6, counterexample.** A single-character line `"A"` survives
`_clean_lines` (the `['A', 'I']` whitelist), so not every output line has
length ≥ 2. -/
theorem c6_counterexample :
    cleanLinesList "A".data = [['A']] ∧
    ¬ 2 ≤ (['A'] : List Char).length := by
  decide

/-- **C7, counterexample.** The bare comma amount in `"1,23x"` is not
followed by a further digit, yet `_fix_character_errors` leaves it
unchanged: the standalone rule requires a whitespace-or-end lookahead,
not merely the absence of a digit. -/
theorem c7_counterexample :
    fixCharacterErrors "1,23x".data = "1,23x".data ∧
    "1,23x".data ≠ "1.23x".data := by
  decide

/-- **C7, amended.** Character correction rewrites a bare two-decimal comma
amount (`digits,d₁d₂`) with a period only when it is followed by whitespace
or the end of the input — not merely when no further digit follows — and a
currency-prefixed comma amount (`[£$€]digits,d₁d₂`) whenever it is not
followed by a further digit. -/
theorem c7_amended (ds : List Char) (a b : Char) (t : List Char)
    (hds : ds ≠ []) (hall : ∀ c ∈ ds, isDigitC c)
    (ha : isDigitC a) (hb : isDigitC b) :
    ((t = [] ∨ ∃ w t', t = w :: t' ∧ isSpaceC w) →
      commaFixBare (ds ++ ',' :: a :: b :: t) =
        ds ++ '.' :: a :: b :: commaFixBare t) ∧
    (∀ cu, isCurrencyC cu →
      (t = [] ∨ ∃ w t', t = w :: t' ∧ ¬ isDigitC w) →
      commaFixCurrency (cu :: (ds ++ ',' :: a :: b :: t)) =
        cu :: ds ++ '.' :: a :: b :: commaFixCurrency t) := by
  have htw : List.takeWhile isDigitC (ds ++ ',' :: a :: b :: t) = ds := by
    rw [List.takeWhile_append_of_pos hall, List.takeWhile_cons_of_neg]
    · simp
    · decide
  have hdrop : List.drop ds.length (ds ++ ',' :: a :: b :: t) =
      ',' :: a :: b :: t := List.drop_left ds _
  have hne : ds.isEmpty = false := by
    cases ds with
    | nil => exact absurd rfl hds
    | cons x xs => rfl
  constructor
  · intro hlook
    have hm : commaBareMatch (ds ++ ',' :: a :: b :: t) =
        some (ds ++ '.' :: [a, b], ds.length + 2) := by
      unfold commaBareMatch
      rw [htw]
      rcases hlook with rfl | ⟨w, t', rfl, hw⟩
      · simp [hne, hdrop, ha, hb]
      · simp [hne, hdrop, ha, hb, hw]
    obtain ⟨d0, ds', rfl⟩ : ∃ d0 ds', ds = d0 :: ds' := by
      cases ds with
      | nil => exact absurd rfl hds
      | cons x xs => exact ⟨x, xs, rfl⟩
    rw [List.cons_append] at hm
    have hdt : List.drop ((d0 :: ds').length + 2)
        (ds' ++ ',' :: a :: b :: t) = t := by
      rw [List.length_cons,
        show ds'.length + 1 + 2 = ds'.length + 3 from by omega,
        ← List.drop_drop 3 ds'.length, List.drop_left]
      rfl
    unfold commaFixBare
    rw [List.cons_append, scanSub_cons_of_match hm, hdt]
    simp [commaFixBare]
  · intro cu hcu hlook
    have hm : commaCurrencyMatch (cu :: (ds ++ ',' :: a :: b :: t)) =
        some (cu :: ds ++ '.' :: [a, b], ds.length + 3) := by
      unfold commaCurrencyMatch
      rcases hlook with rfl | ⟨w, t', rfl, hw⟩
      · simp [htw, hne, hdrop, ha, hb, hcu]
      · simp [htw, hne, hdrop, ha, hb, hcu, hw]
    have hdt : List.drop (ds.length + 3) (ds ++ ',' :: a :: b :: t) = t := by
      rw [← List.drop_drop 3 ds.length, List.drop_left]
      rfl
    unfold commaFixCurrency
    rw [scanSub_cons_of_match hm, hdt]
    simp [commaFixCurrency]

/-- Witness for `c7_amended` at `ds = "1"`, `a = '2'`, `b = '3'`, `t = []`,
`cu = '£'`. -/
theorem c7_amended_witness :
    (("1".data ≠ []) ∧ (∀ c ∈ "1".data, isDigitC c) ∧ isDigitC '2' ∧
      isDigitC '3' ∧ isCurrencyC '£') ∧
    commaFixBare "1,23".data = "1.23".data ∧
    commaFixCurrency "£1,23".data = "£1.23".data := by
  refine ⟨by decide, ?_, ?_⟩
  · have h := (c7_amended "1".data '2' '3' [] (by decide) (by decide)
      (by decide) (by decide)).1 (Or.inl rfl)
    simpa using h
  · have h := (c7_amended "1".data '2' '3' [] (by decide) (by decide)
      (by decide) (by decide)).2 '£' (by decide) (Or.inl rfl)
    simpa using h

/-- The summary branches leave the record unchanged when no summary
predicate matches the line. -/
theorem stepSummary_of_unclassified (line : List Char) (r : ReceiptData)
    (h2 : isSubtotalLine line = false) (h3 : isTotalDiscountLine line = false)
    (h4 : isFinalTotalLine line = false) (h5 : isPaymentLine line = false)
    (h6 : isChangeLine line = false) : stepSummary line r = r := by
  simp [stepSummary, h2, h3, h4, h5, h6]

/-- The parse loop leaves the record unchanged when every line fails every
classification predicate. -/
theorem parseLoop_unclassified :
    ∀ (ls : List (List Char)) (i : Nat) (r : ReceiptData),
      (∀ l ∈ ls, isItemLine l = false ∧ isSubtotalLine l = false ∧
        isTotalDiscountLine l = false ∧ isFinalTotalLine l = false ∧
        isPaymentLine l = false ∧ isChangeLine l = false) →
      parseLoop i ls r = r := by
  intro ls
  induction ls with
  | nil => intro i r _; rfl
  | cons line rest ih =>
    intro i r h
    have hline := h line (List.mem_cons_self line rest)
    have hrest : ∀ l ∈ rest, isItemLine l = false ∧ isSubtotalLine l = false ∧
        isTotalDiscountLine l = false ∧ isFinalTotalLine l = false ∧
        isPaymentLine l = false ∧ isChangeLine l = false :=
      fun l hl => h l (List.mem_cons_of_mem line hl)
    have hss : stepSummary line r = r :=
      stepSummary_of_unclassified line r hline.2.1 hline.2.2.1 hline.2.2.2.1
        hline.2.2.2.2.1 hline.2.2.2.2.2
    cases rest with
    | nil =>
      simp only [parseLoop]
      split
      · rfl
      · rw [hline.1]
        simp [hss]
    | cons next rest2 =>
      simp only [parseLoop]
      split
      · exact ih (i + 1) r hrest
      · rw [hline.1]
        simp only [Bool.false_eq_true, if_false, hss]
        exact ih (i + 1) r hrest

/-- **C8.** `parse_receipt` is total by construction (every helper is a
total function; fallible steps return `Option`), and lines matching no
classification predicate are silently skipped: if no parsed line is
classified, the result is the all-default (empty) record. -/
theorem c8_unclassified_lines_skipped (s : List Char)
    (h : ∀ l ∈ parsedLines s, isItemLine l = false ∧ isSubtotalLine l = false ∧
      isTotalDiscountLine l = false ∧ isFinalTotalLine l = false ∧
      isPaymentLine l = false ∧ isChangeLine l = false) :
    parseReceipt s = {} :=
  parseLoop_unclassified (parsedLines s) 0 {} h

/-- Witness for `c8_unclassified_lines_skipped` on
`"hello world\nthank you"` (no line carries a price, so none classifies). -/
theorem c8_unclassified_lines_skipped_witness :
    (∀ l ∈ parsedLines "hello world\nthank you".data,
      isItemLine l = false ∧ isSubtotalLine l = false ∧
      isTotalDiscountLine l = false ∧ isFinalTotalLine l = false ∧
      isPaymentLine l = false ∧ isChangeLine l = false) ∧
    parseReceipt "hello world\nthank you".data = {} :=
  ⟨by decide, c8_unclassified_lines_skipped _ (by decide)⟩

/-- One-step unfolding equation for `scanSub`. -/
theorem scanSub_cons (m : List Char → Option (List Char × Nat))
    (c : Char) (rest : List Char) :
    scanSub m (c :: rest) =
      match m (c :: rest) with
      | some (repl, extra) => repl ++ scanSub m (rest.drop extra)
      | none => c :: scanSub m rest := by
  cases hm : m (c :: rest) with
  | some pr =>
    obtain ⟨repl, extra⟩ := pr
    rw [scanSub_cons_of_match hm]
  | none => rw [scanSub_cons_of_none hm]

/-- Dropping the `takeWhile` prefix leaves the `dropWhile` suffix. -/
theorem drop_length_takeWhile (p : Char → Bool) (l : List Char) :
    l.drop (l.takeWhile p).length = l.dropWhile p := by
  have h := List.drop_left (l.takeWhile p) (l.dropWhile p)
  rwa [List.takeWhile_append_dropWhile] at h

/-- Whitespace collapsing keeps a non-whitespace head character. -/
theorem collapseWS_cons_of_not {c : Char} {rest : List Char}
    (hc : isSpaceC c = false) :
    collapseWS (c :: rest) = c :: collapseWS rest := by
  unfold collapseWS
  rw [scanSub_cons]
  simp [hc]

/-- Whitespace collapsing turns a leading whitespace run into one space. -/
theorem collapseWS_cons_of_ws {c : Char} {rest : List Char}
    (hc : isSpaceC c = true) :
    collapseWS (c :: rest) = ' ' :: collapseWS (rest.dropWhile isSpaceC) := by
  unfold collapseWS
  rw [scanSub_cons]
  simp [hc, drop_length_takeWhile]
/-- Prepending a non-whitespace character preserves tidiness. -/
theorem wsTidy_cons_of_not {c : Char} {l : List Char}
    (hc : isSpaceC c = false) (h : wsTidy l = true) :
    wsTidy (c :: l) = true := by
  cases l with
  | nil => simp [wsTidy, hc]
  | cons d t => simp [wsTidy, hc, h]

/-- Prepending one space before a non-whitespace head preserves
tidiness. -/
theorem wsTidy_cons_space {l : List Char}
    (hl : ∀ d t, l = d :: t → isSpaceC d = false) (h : wsTidy l = true) :
    wsTidy (' ' :: l) = true := by
  cases l with
  | nil => decide
  | cons d t => simp [wsTidy, hl d t rfl, h]

/-- The output of whitespace collapsing is always tidy: every whitespace
character is a plain space and no two are adjacent. -/
theorem wsTidy_collapseWS :
    ∀ (n : Nat) (s : List Char), s.length ≤ n →
      wsTidy (collapseWS s) = true := by
  intro n
  induction n with
  | zero =>
    intro s hs
    have : s = [] := List.eq_nil_of_length_eq_zero (Nat.le_zero.mp hs)
    subst this
    decide
  | succ n ih =>
    intro s hs
    cases s with
    | nil => decide
    | cons c rest =>
      by_cases hc : isSpaceC c = true
      · rw [collapseWS_cons_of_ws hc]
        have hlen : (rest.dropWhile isSpaceC).length ≤ n := by
          have h1 := (List.dropWhile_sublist (l := rest) isSpaceC).length_le
          simp at hs
          omega
        apply wsTidy_cons_space _ (ih _ hlen)
        intro d t hdt
        cases hq : rest.dropWhile isSpaceC with
        | nil =>
          rw [hq] at hdt
          exact List.noConfusion hdt
        | cons a w =>
          have ha : isSpaceC a = false := dropWhile_head_false _ _ _ _ hq
          rw [hq, collapseWS_cons_of_not ha] at hdt
          injection hdt with h1 _
          subst h1
          exact ha
      · have hc' : isSpaceC c = false := by simpa using hc
        rw [collapseWS_cons_of_not hc']
        have hlen : rest.length ≤ n := by simp at hs; omega
        exact wsTidy_cons_of_not hc' (ih rest hlen)

/-- Whitespace collapsing preserves a non-whitespace last character. -/
theorem collapseWS_getLast :
    ∀ (n : Nat) (s : List Char), s.length ≤ n → ∀ z : Char,
      s.getLast? = some z → isSpaceC z = false →
      (collapseWS s).getLast? = some z := by
  intro n
  induction n with
  | zero =>
    intro s hs z hz _
    have : s = [] := List.eq_nil_of_length_eq_zero (Nat.le_zero.mp hs)
    subst this
    exact Option.noConfusion hz
  | succ n ih =>
    intro s hs z hz hzw
    cases s with
    | nil => exact Option.noConfusion hz
    | cons c rest =>
      cases hr : rest with
      | nil =>
        subst hr
        have hzc : z = c := by simpa using hz.symm
        subst hzc
        rw [collapseWS_cons_of_not hzw]
        rfl
      | cons r rs =>
        subst hr
        have hzrest : (r :: rs).getLast? = some z := by
          rwa [List.getLast?_cons_cons] at hz
        by_cases hc : isSpaceC c = true
        · rw [collapseWS_cons_of_ws hc]
          have hune : (r :: rs).dropWhile isSpaceC ≠ [] := by
            intro h0
            have hzm : z ∈ r :: rs := by
              obtain ⟨hne', heq⟩ := List.mem_getLast?_eq_getLast
                (show z ∈ (r :: rs).getLast? from hzrest ▸ rfl)
              rw [heq]
              exact List.getLast_mem hne'
            have := (List.dropWhile_eq_nil_iff.mp h0) z hzm
            rw [this] at hzw
            exact Bool.noConfusion hzw
          have hulast : ((r :: rs).dropWhile isSpaceC).getLast? = some z := by
            have hsplit := List.takeWhile_append_dropWhile isSpaceC (r :: rs)
            have h2 : ((r :: rs).takeWhile isSpaceC ++
                (r :: rs).dropWhile isSpaceC).getLast? = some z := by
              rw [hsplit]
              exact hzrest
            rw [List.getLast?_append] at h2
            cases hq : ((r :: rs).dropWhile isSpaceC).getLast? with
            | none => exact absurd (List.getLast?_eq_none_iff.mp hq) hune
            | some q =>
              rw [hq] at h2
              simpa [Option.or] using h2
          have hlen : ((r :: rs).dropWhile isSpaceC).length ≤ n := by
            have h1 := (List.dropWhile_sublist (l := r :: rs) isSpaceC).length_le
            simp at hs h1
            omega
          have hres := ih _ hlen z hulast hzw
          cases hq : collapseWS ((r :: rs).dropWhile isSpaceC) with
          | nil =>
            rw [hq] at hres
            exact Option.noConfusion hres
          | cons x xs =>
            rw [hq] at hres
            rw [List.getLast?_cons_cons]
            exact hres
        · have hc' : isSpaceC c = false := by simpa using hc
          rw [collapseWS_cons_of_not hc']
          have hlen : (r :: rs).length ≤ n := by simp at hs ⊢; omega
          have hres := ih _ hlen z hzrest hzw
          cases hq : collapseWS (r :: rs) with
          | nil =>
            rw [hq] at hres
            exact Option.noConfusion hres
          | cons x xs =>
            rw [hq] at hres
            rw [List.getLast?_cons_cons]
            exact hres
/-- A non-empty strip-then-collapse result is whitespace-normalized:
trimmed with tidy internal whitespace. -/
theorem wsNormalized_collapse_strip (X : List Char)
    (hne : collapseWS (pyStrip X) ≠ []) :
    wsNormalized (collapseWS (pyStrip X)) = true := by
  have hsne : pyStrip X ≠ [] := by
    intro h0
    rw [h0] at hne
    exact hne rfl
  obtain ⟨a, z, hh, ha, hl, hz⟩ := pyStrip_ends X hsne
  obtain ⟨rest, hrest⟩ : ∃ rest, pyStrip X = a :: rest := by
    cases hps : pyStrip X with
    | nil => exact absurd hps hsne
    | cons x xs =>
      rw [hps] at hh
      exact ⟨xs, by rw [show x = a from by simpa using hh]⟩
  unfold wsNormalized
  have h1 : wsTidy (collapseWS (pyStrip X)) = true :=
    wsTidy_collapseWS (pyStrip X).length _ le_rfl
  have h3 : (collapseWS (pyStrip X)).getLast? = some z :=
    collapseWS_getLast (pyStrip X).length _ le_rfl z hl hz
  rw [h1, h3, hrest, collapseWS_cons_of_not ha]
  simp [ha, hz]

set_option maxHeartbeats 2000000 in
set_option maxHeartbeats 2000000 in
/-- An item produced by `_parse_item_line` has a non-empty,
whitespace-normalized name (the `if not name: return None` guard and the
strip/collapse cleanup), and its quantity is exactly the value computed
from the leading quantity pattern (the literal leading integer, or the
default 1). -/
theorem parseItemLine_props (line : List Char) (it : ReceiptItem)
    (h : parseItemLine line = some it) :
    it.name ≠ [] ∧ wsNormalized it.name = true ∧
      it.quantity = (qtyRemainder line).1 := by
  unfold parseItemLine at h
  split at h
  · exact Option.noConfusion h
  · split at h
    · exact Option.noConfusion h
    · split at h
      · exact Option.noConfusion h
      · split at h
        · exact Option.noConfusion h
        · rename_i hname
          rw [Option.some_inj] at h
          subst h
          refine ⟨hname, ?_, rfl⟩
          exact wsNormalized_collapse_strip _ hname
/-- The discount lookahead does not change an item's name. -/
theorem applyDiscount_name (next : List Char) (it : ReceiptItem) :
    (applyDiscount next it).name = it.name := by
  unfold applyDiscount
  split
  · split <;> rfl
  · rfl

/-- The summary branches never touch the items list. -/
theorem stepSummary_items (line : List Char) (r : ReceiptData) :
    (stepSummary line r).items = r.items := by
  unfold stepSummary
  split
  · rfl
  · split
    · rfl
    · split
      · rfl
      · split
        · split <;> rfl
        · split <;> rfl

/-- Any name property guaranteed by `_parse_item_line` holds of every item
accumulated by the parse loop (the loop only appends parsed items, and
neither the discount lookahead nor the summary branches touch names). -/
theorem parseLoop_items (P : List Char → Prop)
    (hP : ∀ (line : List Char) (it : ReceiptItem),
      parseItemLine line = some it → P it.name) :
    ∀ (n : Nat) (ls : List (List Char)), ls.length ≤ n →
      ∀ (i : Nat) (r : ReceiptData),
      (∀ it ∈ r.items, P it.name) →
      ∀ it ∈ (parseLoop i ls r).items, P it.name := by
  intro n
  induction n with
  | zero =>
    intro ls hl i r hr
    have : ls = [] := List.eq_nil_of_length_eq_zero (Nat.le_zero.mp hl)
    subst this
    exact hr
  | succ n ih =>
    intro ls hl i r hr
    cases ls with
    | nil => exact hr
    | cons line rest =>
      have happend : ∀ (item : ReceiptItem), parseItemLine line = some item →
          ∀ it' ∈ r.items ++ [{ item with final_price := item.total_price }],
            P it'.name := by
        intro item hitem it' hmem
        rcases List.mem_append.mp hmem with hmem | hmem
        · exact hr it' hmem
        · rcases List.mem_singleton.mp hmem with rfl
          exact hP line item hitem
      cases rest with
      | nil =>
        simp only [parseLoop]
        split
        · exact hr
        · split
          · split
            · rename_i item hitem
              exact happend item hitem
            · exact hr
          · intro it hmem
            rw [stepSummary_items] at hmem
            exact hr it hmem
      | cons next rest2 =>
        have hl1 : (next :: rest2).length ≤ n := by
          simp at hl ⊢
          omega
        have hl2 : rest2.length ≤ n := by
          simp at hl
          omega
        simp only [parseLoop]
        split
        · exact ih (next :: rest2) hl1 (i + 1) r hr
        · split
          · split
            · rename_i item hitem
              split
              · apply ih rest2 hl2 (i + 2)
                intro it' hmem
                rcases List.mem_append.mp hmem with hmem | hmem
                · exact hr it' hmem
                · rcases List.mem_singleton.mp hmem with rfl
                  rw [applyDiscount_name]
                  exact hP line item hitem
              · exact ih (next :: rest2) hl1 (i + 1) _ (happend item hitem)
            · exact ih (next :: rest2) hl1 (i + 1) r hr
          · apply ih (next :: rest2) hl1 (i + 1)
            intro it hmem
            rw [stepSummary_items] at hmem
            exact hr it hmem

/-- **C9, amended.** Every item in a parsed record has a non-empty,
whitespace-normalized name (trimmed, internal whitespace reduced to single
plain spaces); and the quantity of an item parsed from a line is exactly
the literal leading integer of the quantity pattern (1 when the pattern is
absent) — a natural number, so it can be 0 for an explicit `0x` prefix and
the original bound ≥ 1 fails. -/
theorem c9_amended :
    (∀ (s : List Char) (it : ReceiptItem), it ∈ (parseReceipt s).items →
      it.name ≠ [] ∧ wsNormalized it.name = true) ∧
    (∀ (line : List Char) (it : ReceiptItem), parseItemLine line = some it →
      it.quantity = (qtyRemainder line).1) := by
  constructor
  · intro s it h
    exact parseLoop_items (fun nm => nm ≠ [] ∧ wsNormalized nm = true)
      (fun line it h => ⟨(parseItemLine_props line it h).1,
        (parseItemLine_props line it h).2.1⟩)
      (parsedLines s).length (parsedLines s) le_rfl 0 {} (by simp) it h
  · intro line it h
    exact (parseItemLine_props line it h).2.2

/-- Witness for `c9_amended` on `"2x Milk 3.00"` and its parsed item. -/
theorem c9_amended_witness :
    (({ name := "Milk".data, quantity := 2, unit_price := mkRat 3 2,
        total_price := 3, discount := 0, final_price := 3 } : ReceiptItem) ∈
        (parseReceipt "2x Milk 3.00".data).items ∧
      parseItemLine "2x Milk 3.00".data =
        some { name := "Milk".data, quantity := 2, unit_price := mkRat 3 2,
               total_price := 3, discount := 0, final_price := 3 }) ∧
    ("Milk".data ≠ [] ∧ wsNormalized "Milk".data = true) ∧
    ({ name := "Milk".data, quantity := 2, unit_price := mkRat 3 2,
       total_price := 3, discount := 0, final_price := 3 } :
        ReceiptItem).quantity = (qtyRemainder "2x Milk 3.00".data).1 :=
  ⟨⟨by decide, by decide⟩,
    c9_amended.1 "2x Milk 3.00".data
      { name := "Milk".data, quantity := 2, unit_price := mkRat 3 2,
        total_price := 3, discount := 0, final_price := 3 } (by decide),
    c9_amended.2 "2x Milk 3.00".data
      { name := "Milk".data, quantity := 2, unit_price := mkRat 3 2,
        total_price := 3, discount := 0, final_price := 3 } (by decide)⟩

/-- **C9, counterexample.** `parse_receipt "0x Milk 3.00"` produces an item
with quantity 0: the leading quantity pattern accepts the digit string
`"0"`, so item quantity is not always ≥ 1. -/
theorem c9_counterexample :
    ((parseReceipt "0x Milk 3.00".data).items.map
      (fun it => it.quantity)) = [0] := by
  decide

/-- **C10.** If the first monetary amount extracted from an item line's
remainder is exactly `0.00`, `_parse_item_line` returns `None` (the price
`0.0` fails the Python truthiness guard exactly like an absent price), so
no item is added. -/
theorem c10_zero_price_item (line : List Char)
    (h : extractPrice (qtyRemainder line).2 = some 0) :
    parseItemLine line = none := by
  simp [parseItemLine, h]

/-- Witness for `c10_zero_price_item` at `"Milk 0.00"`. -/
theorem c10_zero_price_item_witness :
    extractPrice (qtyRemainder "Milk 0.00".data).2 = some 0 ∧
    parseItemLine "Milk 0.00".data = none :=
  ⟨by decide, c10_zero_price_item "Milk 0.00".data (by decide)⟩

/-- **C5.** For every input string the quality score computed by
`_analyze_text_quality` lies in `[0, 1]`, and on the empty string every
metric field is zero. -/
theorem c5_quality_score_bounds :
    (∀ text : List Char,
      0 ≤ (analyzeTextQuality text).quality_score ∧
      (analyzeTextQuality text).quality_score ≤ 1) ∧
    analyzeTextQuality [] =
      { text_length := 0, lines_count := 0, money_amounts := 0,
        dates_found := 0, quality_score := 0 } := by
  constructor
  · intro text
    unfold analyzeTextQuality
    by_cases h : text.isEmpty
    · simp [h]
    · simp only [h, if_false, Bool.false_eq_true]
      constructor
      · apply le_min _ (by norm_num)
        have h1 : (0 : ℚ) ≤ (scanCount moneyMatch text : ℚ) * (3 / 10) := by
          positivity
        have h2 : (0 : ℚ) ≤ (scanCount dateMatch text : ℚ) * (1 / 5) := by
          positivity
        have h3 : (0 : ℚ) ≤
            min ((((splitNl text).filter
              (fun l => !(pyStrip l).isEmpty)).length : ℚ) / 10) 1 * (3 / 10) := by
          apply mul_nonneg _ (by norm_num)
          exact le_min (by positivity) (by norm_num)
        have h4 : (0 : ℚ) ≤ min ((text.length : ℚ) / 500) 1 * (1 / 5) := by
          apply mul_nonneg _ (by norm_num)
          exact le_min (by positivity) (by norm_num)
        linarith
      · exact min_le_right _ _
  · rfl

end Receipt

